import Mathlib

/-!
Verification of `rebuild_transparency.py`: a tool that reverses alpha
compositing over a white background.  The per-pixel function
`calculate_transparency` and the image pipeline
`convert_image_to_transparent` are embedded below in two forms: an
idealized model that evaluates the recovery formula in exact rational
arithmetic, and a faithful model (`calculate_transparency_f64`) in which
every float operation is correctly rounded binary64, matching the runtime
semantics of the Python source.  The two differ precisely when the exact
recovered value sits on a 0.5 boundary, where binary64 evaluation can
round one unit higher.  The rounding offset `EPSILON_HALF` is
`0.5 - sys.float_info.epsilon`, i.e. `1/2 - 2^-52`, an exactly
representable binary64 value.
-/

namespace WhiteToAlpha

/-- Value of `sys.float_info.epsilon` for binary64 doubles: `2^-52`. -/
def floatEpsilon : ℚ := 1 / 2 ^ 52

/-- Constant `EPSILON_HALF = 0.5 - sys.float_info.epsilon` from the source. -/
def EPSILON_HALF : ℚ := 1 / 2 - floatEpsilon

/-- Python `int()` applied to a rational: truncation toward zero. -/
def truncToward0 (q : ℚ) : ℤ := if 0 ≤ q then ⌊q⌋ else ⌈q⌉

/-- Function `calculate_transparency(r, g, b)` from the source:
```
alpha = 255 - min(r, g, b)
if alpha == 0:
    return (0, 0, 0, 0)
ratio = alpha / 255
new_r = int((r - (1 - ratio) * 255) / (ratio) + EPSILON_HALF)
new_g = int((g - (1 - ratio) * 255) / (ratio) + EPSILON_HALF)
new_b = int((b - (1 - ratio) * 255) / (ratio) + EPSILON_HALF)
return (new_r, new_g, new_b, alpha)
```
with the binary64 arithmetic of the channel lines idealized as exact
rational arithmetic.  This is an idealization, not the runtime
semantics: the program evaluates the channel expressions in doubles,
and the two differ exactly where the recovered value lies on a 0.5
boundary (see `calculate_transparency_f64` below, which rounds every
operation to binary64 and is the faithful model). -/
def calculate_transparency (r g b : ℤ) : ℤ × ℤ × ℤ × ℤ :=
  let alpha : ℤ := 255 - min r (min g b)
  if alpha = 0 then (0, 0, 0, 0)
  else
    let ratio : ℚ := (alpha : ℚ) / 255
    let new_r : ℤ := truncToward0 (((r : ℚ) - (1 - ratio) * 255) / ratio + EPSILON_HALF)
    let new_g : ℤ := truncToward0 (((g : ℚ) - (1 - ratio) * 255) / ratio + EPSILON_HALF)
    let new_b : ℤ := truncToward0 (((b : ℚ) - (1 - ratio) * 255) / ratio + EPSILON_HALF)
    (new_r, new_g, new_b, alpha)

/-- A decoded input image as the pipeline sees it: its PIL mode string,
whether its `info` dictionary carries a `transparency` entry, its
dimensions, and its pixel data after `convert("RGB")` in row-major
order (`getdata`). -/
structure DecodedImage where
  mode : String
  infoTransparency : Bool
  width : ℕ
  height : ℕ
  rgbData : List (ℤ × ℤ × ℤ)

/-- The output RGBA image built by `Image.new("RGBA", img.size)` followed
by `putdata(pixels)`. -/
structure RGBAImage where
  width : ℕ
  height : ℕ
  data : List (ℤ × ℤ × ℤ × ℤ)

/-- Function `convert_image_to_transparent` from the source, modelled on an already
decoded image: it reports whether the transparency warning is printed
(`img.mode in ("RGBA", "LA") or (img.mode == "P" and "transparency" in
img.info)`) and builds the output image by mapping
`calculate_transparency` over the RGB pixel list. -/
def convert_image_to_transparent (img : DecodedImage) : Bool × RGBAImage :=
  let warned : Bool :=
    (img.mode == "RGBA" || img.mode == "LA") || (img.mode == "P" && img.infoTransparency)
  (warned,
   { width := img.width
     height := img.height
     data := img.rgbData.map fun p => calculate_transparency p.1 p.2.1 p.2.2 })

/-- The notion, following the specification, of an image carrying
transparency information: an
alpha channel (mode `RGBA`), a luminance-alpha channel (mode `LA`), or a
palette with a designated transparent index (mode `P` with a
`transparency` entry). -/
def carriesTransparencyInfo (img : DecodedImage) : Prop :=
  img.mode = "RGBA" ∨ img.mode = "LA" ∨ (img.mode = "P" ∧ img.infoTransparency = true)

/-- Re-compositing a recovered channel `c` with alpha `a` over white at
opacity `a/255`, rounding half up. -/
def recompose (c a : ℤ) : ℤ :=
  ⌊(c : ℚ) * ((a : ℚ) / 255) + 255 * (1 - (a : ℚ) / 255) + 1 / 2⌋

/-- Round a rational to the nearest integer, ties to the even integer. -/
def roundNearestEven (y : ℚ) : ℤ :=
  if y - ⌊y⌋ < 1 / 2 then ⌊y⌋
  else if 1 / 2 < y - ⌊y⌋ then ⌊y⌋ + 1
  else if Even ⌊y⌋ then ⌊y⌋ else ⌊y⌋ + 1

/-- Correct rounding of a rational to IEEE binary64 (round to nearest,
ties to even), given as the exact rational value of the resulting
double.  This is the full binary64 rounding rule for the normal range;
every intermediate value of the float computation in the source lies
far inside the normal range, so overflow and subnormal handling never
come into play on the domain of interest. -/
def roundB64 (q : ℚ) : ℚ :=
  if q = 0 then 0
  else (roundNearestEven (q * 2 ^ (52 - Int.log 2 |q|)) : ℚ) * 2 ^ (Int.log 2 |q| - 52)

/-- The double `ratio = alpha / 255` as the source computes it. -/
def ratioF64 (alpha : ℤ) : ℚ := roundB64 ((alpha : ℚ) / 255)

/-- One recovered channel exactly as the source computes it in binary64:
every arithmetic operation of `(v - (1 - ratio) * 255) / (ratio) +
EPSILON_HALF` is correctly rounded (the integer operands and the stored
constant `EPSILON_HALF = 1/2 - 2^-52` are exactly representable), then
`int()` truncates toward zero. -/
def channelF64 (alpha v : ℤ) : ℤ :=
  let ratio : ℚ := ratioF64 alpha
  let t1 : ℚ := roundB64 (1 - ratio)
  let t2 : ℚ := roundB64 (t1 * 255)
  let t3 : ℚ := roundB64 ((v : ℚ) - t2)
  let t4 : ℚ := roundB64 (t3 / ratio)
  let t5 : ℚ := roundB64 (t4 + EPSILON_HALF)
  truncToward0 t5

/-- `calculate_transparency` with its float operations modelled faithfully
as correctly rounded binary64 — the exact runtime semantics of the Python
source, which evaluates the recovery formula in doubles. -/
def calculate_transparency_f64 (r g b : ℤ) : ℤ × ℤ × ℤ × ℤ :=
  let alpha : ℤ := 255 - min r (min g b)
  if alpha = 0 then (0, 0, 0, 0)
  else (channelF64 alpha r, channelF64 alpha g, channelF64 alpha b, alpha)

/-! ### Basic facts about the rounding offset -/

lemma EH_nonneg : 0 ≤ EPSILON_HALF := by norm_num [EPSILON_HALF, floatEpsilon]

lemma EH_lt_half : EPSILON_HALF < 1 / 2 := by norm_num [EPSILON_HALF, floatEpsilon]

lemma floor_EH : ⌊EPSILON_HALF⌋ = 0 := by
  rw [Int.floor_eq_zero_iff, Set.mem_Ico]
  exact ⟨EH_nonneg, lt_trans EH_lt_half (by norm_num)⟩

/-! ### Unfolding `calculate_transparency` -/

/-- The pre-truncation value of one recovered channel — the expression
the source writes, evaluated here in exact rational arithmetic (the
source evaluates it in binary64; `channelF64` models that). -/
def recoverQ (alpha v : ℤ) : ℚ :=
  ((v : ℚ) - (1 - (alpha : ℚ) / 255) * 255) / ((alpha : ℚ) / 255) + EPSILON_HALF

lemma calculate_transparency_zero (r g b : ℤ) (h : 255 - min r (min g b) = 0) :
    calculate_transparency r g b = (0, 0, 0, 0) := by
  simp only [calculate_transparency]
  rw [if_pos h]

lemma calculate_transparency_pos (r g b : ℤ) (h : ¬255 - min r (min g b) = 0) :
    calculate_transparency r g b =
      (truncToward0 (recoverQ (255 - min r (min g b)) r),
       truncToward0 (recoverQ (255 - min r (min g b)) g),
       truncToward0 (recoverQ (255 - min r (min g b)) b),
       255 - min r (min g b)) := by
  simp only [calculate_transparency, recoverQ]
  rw [if_neg h]

/-- The expression `(v - (1 - ratio) * 255) / ratio` of the source in closed form. -/
lemma recoverQ_eq (alpha v : ℤ) (h : alpha ≠ 0) :
    recoverQ alpha v = 255 * ((v : ℚ) - 255 + (alpha : ℚ)) / (alpha : ℚ) + EPSILON_HALF := by
  have ha : (alpha : ℚ) ≠ 0 := Int.cast_ne_zero.mpr h
  have key : ((v : ℚ) - (1 - (alpha : ℚ) / 255) * 255) / ((alpha : ℚ) / 255) =
      255 * ((v : ℚ) - 255 + (alpha : ℚ)) / (alpha : ℚ) := by
    field_simp
    ring
  rw [recoverQ, key]

/-! ### Bounds on the exact recovered value -/

lemma exact_nonneg (alpha v : ℤ) (h1 : 0 < alpha) (h3 : 255 - alpha ≤ v) :
    0 ≤ 255 * ((v : ℚ) - 255 + (alpha : ℚ)) / (alpha : ℚ) := by
  have ha : (0 : ℚ) < (alpha : ℚ) := by exact_mod_cast h1
  have hv : ((255 - alpha : ℤ) : ℚ) ≤ (v : ℚ) := by exact_mod_cast h3
  apply div_nonneg _ ha.le
  push_cast at hv
  nlinarith

lemma exact_le_255 (alpha v : ℤ) (h1 : 0 < alpha) (h4 : v ≤ 255) :
    255 * ((v : ℚ) - 255 + (alpha : ℚ)) / (alpha : ℚ) ≤ 255 := by
  have ha : (0 : ℚ) < (alpha : ℚ) := by exact_mod_cast h1
  have hv : (v : ℚ) ≤ 255 := by exact_mod_cast h4
  rw [div_le_iff₀ ha]
  nlinarith

lemma truncToward0_recoverQ_eq_floor (alpha v : ℤ) (h1 : 0 < alpha) (h3 : 255 - alpha ≤ v) :
    truncToward0 (recoverQ alpha v) =
      ⌊255 * ((v : ℚ) - 255 + (alpha : ℚ)) / (alpha : ℚ) + EPSILON_HALF⌋ := by
  rw [recoverQ_eq alpha v (by omega), truncToward0, if_pos]
  linarith [exact_nonneg alpha v h1 h3, EH_nonneg]

lemma recover_nonneg (alpha v : ℤ) (h1 : 0 < alpha) (h3 : 255 - alpha ≤ v) :
    0 ≤ truncToward0 (recoverQ alpha v) := by
  rw [truncToward0_recoverQ_eq_floor alpha v h1 h3]
  apply Int.le_floor.mpr
  push_cast
  linarith [exact_nonneg alpha v h1 h3, EH_nonneg]

lemma recover_le_255 (alpha v : ℤ) (h1 : 0 < alpha) (h3 : 255 - alpha ≤ v) (h4 : v ≤ 255) :
    truncToward0 (recoverQ alpha v) ≤ 255 := by
  rw [truncToward0_recoverQ_eq_floor alpha v h1 h3]
  have h := exact_le_255 alpha v h1 h4
  have hf : ⌊255 * ((v : ℚ) - 255 + (alpha : ℚ)) / (alpha : ℚ) + EPSILON_HALF⌋ < 256 := by
    apply Int.floor_lt.mpr
    push_cast
    linarith [EH_lt_half]
  omega

lemma recover_full_alpha (v : ℤ) (h : 0 ≤ v) : truncToward0 (recoverQ 255 v) = v := by
  rw [truncToward0_recoverQ_eq_floor 255 v (by norm_num) (by omega)]
  have hval : (255 : ℚ) * ((v : ℚ) - 255 + ((255 : ℤ) : ℚ)) / ((255 : ℤ) : ℚ) = (v : ℚ) := by
    push_cast
    ring
  rw [hval, Int.floor_int_add, floor_EH, add_zero]

/-! ### Facts about binary64 rounding -/

lemma roundNearestEven_close (y : ℚ) : |(roundNearestEven y : ℚ) - y| ≤ 1 / 2 := by
  have h0 : (⌊y⌋ : ℚ) ≤ y := Int.floor_le y
  have h1 : y < ⌊y⌋ + 1 := Int.lt_floor_add_one y
  unfold roundNearestEven
  split_ifs with hlt hgt hev
  · rw [abs_le]
    constructor <;> linarith
  · rw [abs_le]
    push_cast
    constructor <;> linarith
  · rw [abs_le]
    constructor <;> linarith
  · rw [abs_le]
    push_cast
    constructor <;> linarith

/-- Uniqueness of the binary exponent: `Int.log 2` is determined by the
two-sided power bound. -/
lemma int_log2_eq (q : ℚ) (e : ℤ) (h0 : 0 < q) (h1 : (2 : ℚ) ^ e ≤ q)
    (h2 : q < (2 : ℚ) ^ (e + 1)) : Int.log 2 q = e := by
  have hb : (1 : ℕ) < 2 := by norm_num
  have ha : ((2 : ℕ) : ℚ) ^ Int.log 2 q ≤ q := Int.zpow_log_le_self hb h0
  have hbq : q < ((2 : ℕ) : ℚ) ^ (Int.log 2 q + 1) := Int.lt_zpow_succ_log_self hb q
  have hcast : ((2 : ℕ) : ℚ) = (2 : ℚ) := by norm_num
  rw [hcast] at ha hbq
  have c1 : (2 : ℚ) ^ Int.log 2 q < (2 : ℚ) ^ (e + 1) := lt_of_le_of_lt ha h2
  have c2 : (2 : ℚ) ^ e < (2 : ℚ) ^ (Int.log 2 q + 1) := lt_of_le_of_lt h1 hbq
  have d1 : Int.log 2 q < e + 1 :=
    (zpow_lt_zpow_iff_right₀ (by norm_num : (1 : ℚ) < 2)).mp c1
  have d2 : e < Int.log 2 q + 1 :=
    (zpow_lt_zpow_iff_right₀ (by norm_num : (1 : ℚ) < 2)).mp c2
  omega

/-- Half-ulp accuracy of binary64 rounding, in relative form: the rounded
value is within `2^-53` of the argument, relatively. -/
lemma roundB64_err (q : ℚ) : |roundB64 q - q| ≤ |q| * 2 ^ (-53 : ℤ) := by
  by_cases hq : q = 0
  · subst hq
    simp [roundB64]
  · have habs : 0 < |q| := abs_pos.mpr hq
    set e : ℤ := Int.log 2 |q| with he
    have hlo : (2 : ℚ) ^ e ≤ |q| := by
      have := Int.zpow_log_le_self (b := 2) (by norm_num) habs
      simpa [he] using this
    rw [roundB64, if_neg hq]
    have h2pos : (0 : ℚ) < 2 ^ (e - 52) := by positivity
    have key : (roundNearestEven (q * 2 ^ (52 - e)) : ℚ) * 2 ^ (e - 52) - q
        = ((roundNearestEven (q * 2 ^ (52 - e)) : ℚ) - q * 2 ^ (52 - e)) * 2 ^ (e - 52) := by
      rw [sub_mul, mul_assoc, ← zpow_add₀ (by norm_num : (2 : ℚ) ≠ 0)]
      norm_num
    rw [key, abs_mul, abs_of_pos h2pos]
    have hr := roundNearestEven_close (q * 2 ^ (52 - e))
    calc |(roundNearestEven (q * 2 ^ (52 - e)) : ℚ) - q * 2 ^ (52 - e)| * 2 ^ (e - 52)
        ≤ (1 / 2) * 2 ^ (e - 52) := mul_le_mul_of_nonneg_right hr h2pos.le
      _ = (2 : ℚ) ^ e * 2 ^ (-53 : ℤ) := by
          rw [show (1 / 2 : ℚ) = 2 ^ (-1 : ℤ) by norm_num,
            ← zpow_add₀ (by norm_num : (2 : ℚ) ≠ 0),
            ← zpow_add₀ (by norm_num : (2 : ℚ) ≠ 0)]
          congr 1
          ring
      _ ≤ |q| * 2 ^ (-53 : ℤ) := mul_le_mul_of_nonneg_right hlo (by positivity)

/-- Evaluation rule for `roundB64` at an explicit positive argument with a
certified exponent. -/
lemma roundB64_eq_of_bounds (q : ℚ) (e : ℤ) (n : ℤ) (h0 : 0 < q)
    (h1 : (2 : ℚ) ^ e ≤ q) (h2 : q < (2 : ℚ) ^ (e + 1))
    (hn : roundNearestEven (q * 2 ^ (52 - e)) = n) :
    roundB64 q = (n : ℚ) * 2 ^ (e - 52) := by
  rw [roundB64, if_neg (ne_of_gt h0), abs_of_pos h0, int_log2_eq q e h0 h1 h2, hn]

/-! ### The binary64 channel computation -/

lemma calculate_transparency_f64_zero (r g b : ℤ) (h : 255 - min r (min g b) = 0) :
    calculate_transparency_f64 r g b = (0, 0, 0, 0) := by
  simp only [calculate_transparency_f64]
  rw [if_pos h]

lemma calculate_transparency_f64_pos (r g b : ℤ) (h : ¬255 - min r (min g b) = 0) :
    calculate_transparency_f64 r g b =
      (channelF64 (255 - min r (min g b)) r, channelF64 (255 - min r (min g b)) g,
       channelF64 (255 - min r (min g b)) b, 255 - min r (min g b)) := by
  simp only [calculate_transparency_f64]
  rw [if_neg h]

lemma fourth_component_f64_eq (r g b : ℤ) :
    (calculate_transparency_f64 r g b).2.2.2 = 255 - min r (min g b) := by
  by_cases h : 255 - min r (min g b) = 0
  · rw [calculate_transparency_f64_zero r g b h]
    exact h.symm
  · rw [calculate_transparency_f64_pos r g b h]

lemma channelF64_eq (alpha v : ℤ) :
    channelF64 alpha v =
      truncToward0 (roundB64 (roundB64
        (roundB64 ((v : ℚ) - roundB64 (roundB64 (1 - ratioF64 alpha) * 255)) / ratioF64 alpha)
        + EPSILON_HALF)) := rfl

set_option maxHeartbeats 2000000 in
/-- The chained rounding-error analysis: the binary64 value the source
feeds to `int()` is within `2^-30` of the exact recovered value plus
`EPSILON_HALF`.  (The true error is far smaller; `2^-30` is a convenient
loose bound.) -/
lemma f64_t5_close (alpha v : ℤ) (h1 : 0 < alpha) (h2 : alpha ≤ 255)
    (h3 : 255 - alpha ≤ v) (h4 : v ≤ 255) :
    |roundB64 (roundB64
        (roundB64 ((v : ℚ) - roundB64 (roundB64 (1 - ratioF64 alpha) * 255)) / ratioF64 alpha)
        + EPSILON_HALF)
      - (255 * ((v : ℚ) - 255 + (alpha : ℚ)) / (alpha : ℚ) + EPSILON_HALF)| ≤ 1 / 2 ^ 30 := by
  have haQ : (1 : ℚ) ≤ (alpha : ℚ) := by exact_mod_cast h1
  have haQ2 : (alpha : ℚ) ≤ 255 := by exact_mod_cast h2
  have hvQ1 : (255 : ℚ) - (alpha : ℚ) ≤ (v : ℚ) := by
    have hc : ((255 - alpha : ℤ) : ℚ) ≤ (v : ℚ) := by exact_mod_cast h3
    push_cast at hc
    linarith
  have hvQ2 : (v : ℚ) ≤ 255 := by exact_mod_cast h4
  have hane : (alpha : ℚ) ≠ 0 := by linarith
  have hu : ((2 : ℚ)) ^ (-53 : ℤ) = 1 / 9007199254740992 := by norm_num
  have hEHval : EPSILON_HALF = 1 / 2 - 1 / 4503599627370496 := by
    norm_num [EPSILON_HALF, floatEpsilon]
  have hx0 : 0 ≤ 255 * ((v : ℚ) - 255 + (alpha : ℚ)) / (alpha : ℚ) :=
    exact_nonneg alpha v h1 h3
  have hx255 : 255 * ((v : ℚ) - 255 + (alpha : ℚ)) / (alpha : ℚ) ≤ 255 :=
    exact_le_255 alpha v h1 h4
  set x : ℚ := 255 * ((v : ℚ) - 255 + (alpha : ℚ)) / (alpha : ℚ) with hxdef
  simp only [ratioF64]
  -- stage 0: ratio
  set ratio : ℚ := roundB64 ((alpha : ℚ) / 255) with hratiodef
  have her0 := roundB64_err ((alpha : ℚ) / 255)
  rw [← hratiodef, hu, abs_of_pos (show (0 : ℚ) < (alpha : ℚ) / 255 by linarith)] at her0
  have e0 : |ratio - (alpha : ℚ) / 255| ≤ 1 / 9007199254740992 := by
    calc |ratio - (alpha : ℚ) / 255| ≤ (alpha : ℚ) / 255 * (1 / 9007199254740992) := her0
      _ ≤ 1 / 9007199254740992 := by linarith
  replace e0 := abs_le.mp e0
  obtain ⟨e0a, e0b⟩ := e0
  have hr_lo : 1 / 256 ≤ ratio := by linarith
  have hr_hi : ratio ≤ 1 + 1 / 9007199254740992 := by linarith
  have hrpos : 0 < ratio := by linarith
  -- stage 1: t1 = fl(1 - ratio)
  set t1 : ℚ := roundB64 (1 - ratio) with ht1def
  have her1 := roundB64_err (1 - ratio)
  rw [← ht1def, hu] at her1
  have habs1 : |1 - ratio| ≤ 1 := by
    rw [abs_le]
    constructor <;> linarith
  have e1 : |t1 - (1 - ratio)| ≤ 1 / 9007199254740992 := by
    calc |t1 - (1 - ratio)| ≤ |1 - ratio| * (1 / 9007199254740992) := her1
      _ ≤ 1 * (1 / 9007199254740992) := by
          apply mul_le_mul_of_nonneg_right habs1
          norm_num
      _ = 1 / 9007199254740992 := by norm_num
  replace e1 := abs_le.mp e1
  obtain ⟨e1a, e1b⟩ := e1
  -- stage 2: t2 = fl(t1 * 255)
  set t2 : ℚ := roundB64 (t1 * 255) with ht2def
  have her2 := roundB64_err (t1 * 255)
  rw [← ht2def, hu] at her2
  have habs2 : |t1 * 255| ≤ 510 := by
    rw [abs_le]
    constructor <;> linarith
  have e2 : |t2 - t1 * 255| ≤ 510 * (1 / 9007199254740992) := by
    calc |t2 - t1 * 255| ≤ |t1 * 255| * (1 / 9007199254740992) := her2
      _ ≤ 510 * (1 / 9007199254740992) := by
          apply mul_le_mul_of_nonneg_right habs2
          norm_num
  replace e2 := abs_le.mp e2
  obtain ⟨e2a, e2b⟩ := e2
  -- t2 tracks 255 - alpha
  have ht2a : t2 - (255 - (alpha : ℚ)) ≤ 1020 * (1 / 9007199254740992) := by linarith
  have ht2b : -(1020 * (1 / 9007199254740992)) ≤ t2 - (255 - (alpha : ℚ)) := by linarith
  -- stage 3: t3 = fl(v - t2)
  set t3 : ℚ := roundB64 ((v : ℚ) - t2) with ht3def
  have her3 := roundB64_err ((v : ℚ) - t2)
  rw [← ht3def, hu] at her3
  have habs3 : |(v : ℚ) - t2| ≤ 256 := by
    rw [abs_le]
    constructor <;> linarith
  have e3 : |t3 - ((v : ℚ) - t2)| ≤ 256 * (1 / 9007199254740992) := by
    calc |t3 - ((v : ℚ) - t2)| ≤ |(v : ℚ) - t2| * (1 / 9007199254740992) := her3
      _ ≤ 256 * (1 / 9007199254740992) := by
          apply mul_le_mul_of_nonneg_right habs3
          norm_num
  replace e3 := abs_le.mp e3
  obtain ⟨e3a, e3b⟩ := e3
  have ht3a : t3 - ((v : ℚ) - 255 + (alpha : ℚ)) ≤ 1276 * (1 / 9007199254740992) := by linarith
  have ht3b : -(1276 * (1 / 9007199254740992)) ≤ t3 - ((v : ℚ) - 255 + (alpha : ℚ)) := by
    linarith
  have ht3abs : |t3| ≤ 256 := by
    rw [abs_le]
    constructor <;> linarith
  -- stage 4: t4 = fl(t3 / ratio)
  set t4 : ℚ := roundB64 (t3 / ratio) with ht4def
  have her4 := roundB64_err (t3 / ratio)
  rw [← ht4def, hu] at her4
  have hdiv1 : |t3 / ratio| ≤ 256 * |t3| := by
    rw [abs_div, abs_of_pos hrpos, div_le_iff₀ hrpos]
    nlinarith [mul_nonneg (abs_nonneg t3) (show (0 : ℚ) ≤ 256 * ratio - 1 by linarith)]
  have habs4 : |t3 / ratio| ≤ 65536 := by
    calc |t3 / ratio| ≤ 256 * |t3| := hdiv1
      _ ≤ 256 * 256 := by linarith
      _ = 65536 := by norm_num
  have e4 : |t4 - t3 / ratio| ≤ 65536 * (1 / 9007199254740992) := by
    calc |t4 - t3 / ratio| ≤ |t3 / ratio| * (1 / 9007199254740992) := her4
      _ ≤ 65536 * (1 / 9007199254740992) := by
          apply mul_le_mul_of_nonneg_right habs4
          norm_num
  replace e4 := abs_le.mp e4
  obtain ⟨e4a, e4b⟩ := e4
  -- compare t3 / ratio with the exact value x
  have hxs : x * ((alpha : ℚ) / 255) = (v : ℚ) - 255 + (alpha : ℚ) := by
    rw [hxdef]
    field_simp
  have hxr : x * ratio = ((v : ℚ) - 255 + (alpha : ℚ)) + x * (ratio - (alpha : ℚ) / 255) := by
    rw [mul_sub, hxs]
    ring
  have hxro : |x * (ratio - (alpha : ℚ) / 255)| ≤ 255 * (1 / 9007199254740992) := by
    rw [abs_mul, abs_of_nonneg hx0]
    calc x * |ratio - (alpha : ℚ) / 255| ≤ 255 * |ratio - (alpha : ℚ) / 255| :=
          mul_le_mul_of_nonneg_right hx255 (abs_nonneg _)
      _ ≤ 255 * (1 / 9007199254740992) := by
          apply mul_le_mul_of_nonneg_left _ (by norm_num)
          rw [abs_le]
          constructor <;> linarith
  replace hxro := abs_le.mp hxro
  obtain ⟨hxroa, hxrob⟩ := hxro
  have hnum : |t3 - x * ratio| ≤ 1531 * (1 / 9007199254740992) := by
    rw [abs_le, hxr]
    constructor <;> linarith
  have hq4 : |t3 / ratio - x| ≤ 256 * (1531 * (1 / 9007199254740992)) := by
    have hid : t3 / ratio - x = (t3 - x * ratio) / ratio := by
      field_simp
      ring
    rw [hid, abs_div, abs_of_pos hrpos, div_le_iff₀ hrpos]
    have hcc : (1531 : ℚ) * (1 / 9007199254740992) ≤
        256 * (1531 * (1 / 9007199254740992)) * ratio := by linarith
    linarith [hnum]
  replace hq4 := abs_le.mp hq4
  obtain ⟨hq4a, hq4b⟩ := hq4
  have ht4a : t4 - x ≤ 457472 * (1 / 9007199254740992) := by linarith
  have ht4b : -(457472 * (1 / 9007199254740992)) ≤ t4 - x := by linarith
  -- stage 5: t5 = fl(t4 + EPSILON_HALF)
  set t5 : ℚ := roundB64 (t4 + EPSILON_HALF) with ht5def
  have her5 := roundB64_err (t4 + EPSILON_HALF)
  rw [← ht5def, hu] at her5
  have habs5 : |t4 + EPSILON_HALF| ≤ 256 := by
    rw [abs_le]
    constructor <;> linarith
  have e5 : |t5 - (t4 + EPSILON_HALF)| ≤ 256 * (1 / 9007199254740992) := by
    calc |t5 - (t4 + EPSILON_HALF)| ≤ |t4 + EPSILON_HALF| * (1 / 9007199254740992) := her5
      _ ≤ 256 * (1 / 9007199254740992) := by
          apply mul_le_mul_of_nonneg_right habs5
          norm_num
  replace e5 := abs_le.mp e5
  obtain ⟨e5a, e5b⟩ := e5
  rw [abs_le]
  constructor <;> linarith

/-- The binary64 channel stays within `3/4` of the exact recovered value
and inside `[0, 255]`. -/
lemma channelF64_bounds (alpha v : ℤ) (h1 : 0 < alpha) (h2 : alpha ≤ 255)
    (h3 : 255 - alpha ≤ v) (h4 : v ≤ 255) :
    0 ≤ channelF64 alpha v ∧ channelF64 alpha v ≤ 255 ∧
    |(channelF64 alpha v : ℚ) - 255 * ((v : ℚ) - 255 + (alpha : ℚ)) / (alpha : ℚ)| ≤ 3 / 4 := by
  have hc := f64_t5_close alpha v h1 h2 h3 h4
  replace hc := abs_le.mp hc
  obtain ⟨hca, hcb⟩ := hc
  have hx0 : 0 ≤ 255 * ((v : ℚ) - 255 + (alpha : ℚ)) / (alpha : ℚ) :=
    exact_nonneg alpha v h1 h3
  have hx255 : 255 * ((v : ℚ) - 255 + (alpha : ℚ)) / (alpha : ℚ) ≤ 255 :=
    exact_le_255 alpha v h1 h4
  have hEHval : EPSILON_HALF = 1 / 2 - 1 / 4503599627370496 := by
    norm_num [EPSILON_HALF, floatEpsilon]
  have h30 : (1 : ℚ) / 2 ^ 30 = 1 / 1073741824 := by norm_num
  rw [h30] at hca hcb
  rw [channelF64_eq]
  set t5 : ℚ := roundB64 (roundB64
      (roundB64 ((v : ℚ) - roundB64 (roundB64 (1 - ratioF64 alpha) * 255)) / ratioF64 alpha)
      + EPSILON_HALF) with ht5def
  have hpos : 0 ≤ t5 := by linarith
  rw [truncToward0, if_pos hpos]
  have hf1 : (⌊t5⌋ : ℚ) ≤ t5 := Int.floor_le _
  have hf2 : t5 < ⌊t5⌋ + 1 := Int.lt_floor_add_one _
  refine ⟨Int.le_floor.mpr (by push_cast; linarith), ?_, ?_⟩
  · have hlt : ⌊t5⌋ < 256 := Int.floor_lt.mpr (by push_cast; linarith)
    omega
  · rw [abs_le]
    constructor <;> linarith

/-- The channel holding the minimum input value comes out exactly `0` in
binary64 as well. -/
lemma channelF64_at_min (alpha v : ℤ) (h1 : 0 < alpha) (h2 : alpha ≤ 255)
    (hv : v = 255 - alpha) : channelF64 alpha v = 0 := by
  subst hv
  have hc := f64_t5_close alpha (255 - alpha) h1 h2 le_rfl (by omega)
  have hxz : 255 * (((255 - alpha : ℤ) : ℚ) - 255 + (alpha : ℚ)) / (alpha : ℚ) = 0 := by
    push_cast
    ring
  rw [hxz, zero_add] at hc
  replace hc := abs_le.mp hc
  obtain ⟨hca, hcb⟩ := hc
  have hEHval : EPSILON_HALF = 1 / 2 - 1 / 4503599627370496 := by
    norm_num [EPSILON_HALF, floatEpsilon]
  have h30 : (1 : ℚ) / 2 ^ 30 = 1 / 1073741824 := by norm_num
  rw [h30] at hca hcb
  rw [channelF64_eq]
  set t5 : ℚ := roundB64 (roundB64
      (roundB64 (((255 - alpha : ℤ) : ℚ) - roundB64 (roundB64 (1 - ratioF64 alpha) * 255))
        / ratioF64 alpha) + EPSILON_HALF) with ht5def
  have hpos : 0 ≤ t5 := by linarith
  rw [truncToward0, if_pos hpos]
  have hup : ⌊t5⌋ < 1 := Int.floor_lt.mpr (by push_cast; linarith)
  have hdn : 0 ≤ ⌊t5⌋ := Int.le_floor.mpr (by push_cast; linarith)
  omega

/-- Re-compositing over white lands within one unit of the input channel
for any integer `R` within `3/4` of the exact recovered value. -/
lemma recompose_close_of_near (alpha v R : ℤ) (h1 : 0 < alpha) (h2 : alpha ≤ 255)
    (_h3 : 255 - alpha ≤ v) (_h4 : v ≤ 255)
    (hR : |(R : ℚ) - 255 * ((v : ℚ) - 255 + (alpha : ℚ)) / (alpha : ℚ)| ≤ 3 / 4) :
    |recompose R alpha - v| ≤ 1 := by
  have haQ : (0 : ℚ) < (alpha : ℚ) := by exact_mod_cast h1
  set x : ℚ := 255 * ((v : ℚ) - 255 + (alpha : ℚ)) / (alpha : ℚ) with hxdef
  have ht0 : (0 : ℚ) < (alpha : ℚ) / 255 := by positivity
  have ht1 : (alpha : ℚ) / 255 ≤ 1 := by
    rw [div_le_one (by norm_num)]
    exact_mod_cast h2
  have hkey : x * ((alpha : ℚ) / 255) = (v : ℚ) - 255 + (alpha : ℚ) := by
    rw [hxdef]
    field_simp
  have habs : |((R : ℚ) - x) * ((alpha : ℚ) / 255)| ≤ 3 / 4 := by
    rw [abs_mul, abs_of_pos ht0]
    calc |(R : ℚ) - x| * ((alpha : ℚ) / 255) ≤ (3 / 4) * ((alpha : ℚ) / 255) :=
          mul_le_mul_of_nonneg_right hR ht0.le
      _ ≤ (3 / 4) * 1 := mul_le_mul_of_nonneg_left ht1 (by norm_num)
      _ = 3 / 4 := by norm_num
  replace habs := abs_le.mp habs
  obtain ⟨hba, hbb⟩ := habs
  have hcv : (R : ℚ) * ((alpha : ℚ) / 255) + 255 * (1 - (alpha : ℚ) / 255) - v =
      ((R : ℚ) - x) * ((alpha : ℚ) / 255) := by
    rw [sub_mul, hkey]
    ring
  simp only [recompose]
  have hlow : v - 1 ≤
      ⌊(R : ℚ) * ((alpha : ℚ) / 255) + 255 * (1 - (alpha : ℚ) / 255) + 1 / 2⌋ := by
    apply Int.le_floor.mpr
    push_cast
    linarith
  have hhigh : ⌊(R : ℚ) * ((alpha : ℚ) / 255) + 255 * (1 - (alpha : ℚ) / 255) + 1 / 2⌋
      ≤ v + 1 := by
    have hlt : ⌊(R : ℚ) * ((alpha : ℚ) / 255) + 255 * (1 - (alpha : ℚ) / 255) + 1 / 2⌋
        < v + 2 := Int.floor_lt.mpr (by push_cast; linarith)
    omega
  rw [abs_le]
  omega

/-! ### Certified binary64 evaluation at the half-boundary input (128, 1, 1) -/

lemma roundB64_c1 : roundB64 ((254 : ℚ) / 255) = 280371153272575 / 281474976710656 := by
  rw [roundB64_eq_of_bounds ((254 : ℚ) / 255) (-1) 8971876904722400 (by norm_num)
    (by norm_num) (by norm_num) (by norm_num [roundNearestEven])]
  norm_num

lemma roundB64_c2 : roundB64 (1 - (280371153272575 / 281474976710656 : ℚ)) =
    1103823438081 / 281474976710656 := by
  rw [roundB64_eq_of_bounds _ (-8) 4521260802379776 (by norm_num) (by norm_num)
    (by norm_num) (by norm_num [roundNearestEven])]
  norm_num

lemma roundB64_c3 : roundB64 ((1103823438081 / 281474976710656 : ℚ) * 255) =
    281474976710655 / 281474976710656 := by
  rw [roundB64_eq_of_bounds _ (-1) 9007199254740960 (by norm_num) (by norm_num)
    (by norm_num) (by norm_num [roundNearestEven])]
  norm_num

lemma roundB64_c4 : roundB64 ((128 : ℚ) - 281474976710655 / 281474976710656) = 127 := by
  rw [roundB64_eq_of_bounds _ 6 8936830510563328 (by norm_num) (by norm_num)
    (by norm_num) (by norm_num [roundNearestEven])]
  norm_num

lemma roundB64_c5 : roundB64 ((127 : ℚ) / (280371153272575 / 281474976710656)) = 255 / 2 := by
  rw [roundB64_eq_of_bounds _ 6 8972014882652160 (by norm_num) (by norm_num)
    (by norm_num) (by norm_num [roundNearestEven])]
  norm_num

lemma roundB64_c6 : roundB64 ((255 : ℚ) / 2 + EPSILON_HALF) = 128 := by
  have harg : (255 : ℚ) / 2 + EPSILON_HALF = 576460752303423487 / 4503599627370496 := by
    norm_num [EPSILON_HALF, floatEpsilon]
  rw [harg, roundB64_eq_of_bounds _ 6 9007199254740992 (by norm_num) (by norm_num)
    (by norm_num) (by norm_num [roundNearestEven])]
  norm_num

/-- At input `(128, 1, 1)` the binary64 computation of the red channel
returns `128`, one above the exact half-boundary value `127.5` truncated
with the offset. -/
lemma channelF64_254_128 : channelF64 254 128 = 128 := by
  rw [channelF64_eq]
  have hr : ratioF64 254 = 280371153272575 / 281474976710656 := by
    rw [ratioF64, show ((254 : ℤ) : ℚ) / 255 = (254 : ℚ) / 255 by norm_num, roundB64_c1]
  rw [hr, roundB64_c2, roundB64_c3,
    show ((128 : ℤ) : ℚ) = (128 : ℚ) by norm_num, roundB64_c4, roundB64_c5, roundB64_c6]
  norm_num [truncToward0]

/-- The fourth component is always the alpha estimate `255 - min r (min g b)`. -/
lemma fourth_component_eq (r g b : ℤ) :
    (calculate_transparency r g b).2.2.2 = 255 - min r (min g b) := by
  by_cases h : 255 - min r (min g b) = 0
  · rw [calculate_transparency_zero r g b h]
    exact h.symm
  · rw [calculate_transparency_pos r g b h]

/-! ### Claim theorems -/

/-- C1: for every input `(r, g, b)` (in particular every integer triple in
`[0,255]^3`), the alpha component returned by `calculate_transparency`
equals `255 - min(r, g, b)`. -/
theorem alpha_component_eq_255_sub_min (r g b : ℤ) :
    (calculate_transparency r g b).2.2.2 = 255 - min r (min g b) :=
  fourth_component_eq r g b

/-- C2 (code bug): the claim says each output channel equals the exact
recovered value `(v - (1 - alpha255/255)*255) / (alpha255/255)` plus
`EPSILON_HALF`, truncated toward zero.  The program evaluates that
expression in binary64, and at input `(128, 1, 1)` (alpha = 254, exact
recovered red channel `127.5`) the float computation returns `128` while
the claimed exact formula gives `127`: representation error pushes an
exact 0.5 boundary to the next integer up, which the rationale the
specification gives for `EPSILON_HALF` explicitly rules out. -/
theorem float_rounds_half_boundary_up :
    (calculate_transparency_f64 128 1 1).1 = 128 ∧
    (calculate_transparency 128 1 1).1 = 127 := by
  constructor
  · rw [calculate_transparency_f64_pos 128 1 1 (by decide),
      show (255 : ℤ) - min 128 (min 1 1) = 254 by decide]
    exact channelF64_254_128
  · norm_num [calculate_transparency, truncToward0, EPSILON_HALF, floatEpsilon, min_def]

/-- C3: when `min(r,g,b) = 255` (equivalently `255 - min(r,g,b) = 0`), the
function returns exactly `(0, 0, 0, 0)` through the zero-alpha guard. -/
theorem min_255_returns_clear (r g b : ℤ) (h : min r (min g b) = 255) :
    calculate_transparency r g b = (0, 0, 0, 0) :=
  calculate_transparency_zero r g b (by omega)

/-- Witness for C3 at pure white `(255, 255, 255)`. -/
theorem min_255_returns_clear_witness :
    min (255 : ℤ) (min 255 255) = 255 ∧ calculate_transparency 255 255 255 = (0, 0, 0, 0) :=
  ⟨by decide, min_255_returns_clear 255 255 255 (by decide)⟩

/-- C4: for inputs in `[0,255]^3` whose output alpha is positive,
re-compositing each recovered channel of the binary64 program over white
at opacity `A/255` and rounding reconstructs the corresponding input
channel to within one. -/
theorem recompose_within_one_f64 (r g b : ℤ)
    (hr0 : 0 ≤ r) (hr1 : r ≤ 255) (hg0 : 0 ≤ g) (hg1 : g ≤ 255)
    (hb0 : 0 ≤ b) (hb1 : b ≤ 255)
    (hA : 0 < (calculate_transparency_f64 r g b).2.2.2) :
    |recompose (calculate_transparency_f64 r g b).1
        (calculate_transparency_f64 r g b).2.2.2 - r| ≤ 1 ∧
    |recompose (calculate_transparency_f64 r g b).2.1
        (calculate_transparency_f64 r g b).2.2.2 - g| ≤ 1 ∧
    |recompose (calculate_transparency_f64 r g b).2.2.1
        (calculate_transparency_f64 r g b).2.2.2 - b| ≤ 1 := by
  rw [fourth_component_f64_eq r g b] at hA
  have hmr : min r (min g b) ≤ r := min_le_left _ _
  have hmg : min r (min g b) ≤ g := (min_le_right r (min g b)).trans (min_le_left g b)
  have hmb : min r (min g b) ≤ b := (min_le_right r (min g b)).trans (min_le_right g b)
  rw [calculate_transparency_f64_pos r g b (by omega)]
  dsimp only
  refine ⟨?_, ?_, ?_⟩
  · exact recompose_close_of_near _ r _ hA (by omega) (by omega) hr1
      (channelF64_bounds _ r hA (by omega) (by omega) hr1).2.2
  · exact recompose_close_of_near _ g _ hA (by omega) (by omega) hg1
      (channelF64_bounds _ g hA (by omega) (by omega) hg1).2.2
  · exact recompose_close_of_near _ b _ hA (by omega) (by omega) hb1
      (channelF64_bounds _ b hA (by omega) (by omega) hb1).2.2

/-- Witness for C4 at the concrete input `(255, 128, 128)`. -/
theorem recompose_within_one_f64_witness :
    0 < (calculate_transparency_f64 255 128 128).2.2.2 ∧
      |recompose (calculate_transparency_f64 255 128 128).1
          (calculate_transparency_f64 255 128 128).2.2.2 - 255| ≤ 1 ∧
      |recompose (calculate_transparency_f64 255 128 128).2.1
          (calculate_transparency_f64 255 128 128).2.2.2 - 128| ≤ 1 ∧
      |recompose (calculate_transparency_f64 255 128 128).2.2.1
          (calculate_transparency_f64 255 128 128).2.2.2 - 128| ≤ 1 :=
  ⟨by rw [fourth_component_f64_eq]; decide,
   recompose_within_one_f64 255 128 128 (by decide) (by decide) (by decide) (by decide)
     (by decide) (by decide) (by rw [fourth_component_f64_eq]; decide)⟩

/-- C5: the pipeline output has the same dimensions as the input, and every
output pixel is exactly `calculate_transparency` of the input pixel at the
same row-major position, with no cross-pixel dependency. -/
theorem pipeline_shape_and_pixels (img : DecodedImage) :
    (convert_image_to_transparent img).2.width = img.width ∧
    (convert_image_to_transparent img).2.height = img.height ∧
    (convert_image_to_transparent img).2.data.length = img.rgbData.length ∧
    ∀ i : ℕ, (convert_image_to_transparent img).2.data.get? i =
      (img.rgbData.get? i).map fun p => calculate_transparency p.1 p.2.1 p.2.2 := by
  refine ⟨rfl, rfl, by simp [convert_image_to_transparent], fun i => ?_⟩
  simp [convert_image_to_transparent]

/-- C6: when `min(r,g,b) = 0` the alpha is `255` and all three channels
pass through unchanged. -/
theorem min_zero_passthrough (r g b : ℤ) (h : min r (min g b) = 0) :
    calculate_transparency r g b = (r, g, b, 255) := by
  have hr : 0 ≤ r := by omega
  have hg : 0 ≤ g := by omega
  have hb : 0 ≤ b := by omega
  rw [calculate_transparency_pos r g b (by omega), h]
  norm_num
  exact ⟨recover_full_alpha r hr, recover_full_alpha g hg, recover_full_alpha b hb⟩

/-- Witness for C6 at pure black `(0, 0, 0)`. -/
theorem min_zero_passthrough_witness :
    min (0 : ℤ) (min 0 0) = 0 ∧ calculate_transparency 0 0 0 = (0, 0, 0, 255) :=
  ⟨by decide, min_zero_passthrough 0 0 0 (by decide)⟩

/-- C7: the transparency warning is emitted iff the decoded image carries
transparency information (alpha channel, luminance-alpha channel, or a
palette with a transparent index), and the RGBA output is still produced
from the RGB channels alone either way. -/
theorem warning_iff_carries_transparency (img : DecodedImage) :
    ((convert_image_to_transparent img).1 = true ↔ carriesTransparencyInfo img) ∧
    (convert_image_to_transparent img).2.data =
      img.rgbData.map fun p => calculate_transparency p.1 p.2.1 p.2.2 := by
  constructor
  · simp [convert_image_to_transparent, carriesTransparencyInfo, or_assoc]
  · rfl

/-- C8: on `[0,255]^3` the function is total with a guarded division: when
the alpha estimate is zero it returns the defined value `(0,0,0,0)` without
dividing, and whenever the division is reached its divisor `ratio` is
nonzero. -/
theorem calculate_transparency_total_guarded (r g b : ℤ)
    (_hr0 : 0 ≤ r) (_hr1 : r ≤ 255) (_hg0 : 0 ≤ g) (_hg1 : g ≤ 255)
    (_hb0 : 0 ≤ b) (_hb1 : b ≤ 255) :
    (255 - min r (min g b) = 0 → calculate_transparency r g b = (0, 0, 0, 0)) ∧
    (255 - min r (min g b) ≠ 0 → ((255 - min r (min g b) : ℤ) : ℚ) / 255 ≠ 0) := by
  refine ⟨calculate_transparency_zero r g b, fun h => ?_⟩
  exact div_ne_zero (Int.cast_ne_zero.mpr h) (by norm_num)

/-- Witness for C8 at `(255, 255, 255)`, exercising the zero-alpha guard. -/
theorem calculate_transparency_total_guarded_witness :
    calculate_transparency 255 255 255 = (0, 0, 0, 0) :=
  (calculate_transparency_total_guarded 255 255 255 (by decide) (by decide) (by decide)
    (by decide) (by decide) (by decide)).1 (by decide)

/-- C9: for every input in `[0,255]^3`, the minimum of the three recovered
output channels of the binary64 program is exactly `0`. -/
theorem some_output_channel_zero_f64 (r g b : ℤ)
    (hr0 : 0 ≤ r) (hr1 : r ≤ 255) (hg0 : 0 ≤ g) (hg1 : g ≤ 255)
    (hb0 : 0 ≤ b) (hb1 : b ≤ 255) :
    min (calculate_transparency_f64 r g b).1
      (min (calculate_transparency_f64 r g b).2.1
        (calculate_transparency_f64 r g b).2.2.1) = 0 := by
  by_cases h : 255 - min r (min g b) = 0
  · rw [calculate_transparency_f64_zero r g b h]
    decide
  · have h1 : 0 < 255 - min r (min g b) := by omega
    rw [calculate_transparency_f64_pos r g b h]
    dsimp only
    have hch_r : 0 ≤ channelF64 (255 - min r (min g b)) r :=
      (channelF64_bounds _ r h1 (by omega) (by omega) hr1).1
    have hch_g : 0 ≤ channelF64 (255 - min r (min g b)) g :=
      (channelF64_bounds _ g h1 (by omega) (by omega) hg1).1
    have hch_b : 0 ≤ channelF64 (255 - min r (min g b)) b :=
      (channelF64_bounds _ b h1 (by omega) (by omega) hb1).1
    rcases min_choice r (min g b) with hc | hc
    · have hz : channelF64 (255 - min r (min g b)) r = 0 :=
        channelF64_at_min _ r h1 (by omega) (by omega)
      omega
    · rcases min_choice g b with hc2 | hc2
      · have hz : channelF64 (255 - min r (min g b)) g = 0 :=
          channelF64_at_min _ g h1 (by omega) (by omega)
        omega
      · have hz : channelF64 (255 - min r (min g b)) b = 0 :=
          channelF64_at_min _ b h1 (by omega) (by omega)
        omega

/-- Witness for C9 at the concrete input `(10, 200, 30)`. -/
theorem some_output_channel_zero_f64_witness :
    min (calculate_transparency_f64 10 200 30).1
      (min (calculate_transparency_f64 10 200 30).2.1
        (calculate_transparency_f64 10 200 30).2.2.1) = 0 :=
  some_output_channel_zero_f64 10 200 30 (by decide) (by decide) (by decide) (by decide)
    (by decide) (by decide)

/-- C10: for every input in `[0,255]^3`, all four output components of
`calculate_transparency` (evaluated in exact rational arithmetic) lie in
`[0,255]` even though no clamping is performed. -/
theorem output_components_in_range (r g b : ℤ)
    (hr0 : 0 ≤ r) (hr1 : r ≤ 255) (hg0 : 0 ≤ g) (hg1 : g ≤ 255)
    (hb0 : 0 ≤ b) (hb1 : b ≤ 255) :
    0 ≤ (calculate_transparency r g b).1 ∧ (calculate_transparency r g b).1 ≤ 255 ∧
    0 ≤ (calculate_transparency r g b).2.1 ∧ (calculate_transparency r g b).2.1 ≤ 255 ∧
    0 ≤ (calculate_transparency r g b).2.2.1 ∧ (calculate_transparency r g b).2.2.1 ≤ 255 ∧
    0 ≤ (calculate_transparency r g b).2.2.2 ∧ (calculate_transparency r g b).2.2.2 ≤ 255 := by
  by_cases h : 255 - min r (min g b) = 0
  · rw [calculate_transparency_zero r g b h]
    norm_num
  · have h1 : 0 < 255 - min r (min g b) := by omega
    rw [calculate_transparency_pos r g b h]
    dsimp only
    refine ⟨recover_nonneg _ r h1 (by omega), recover_le_255 _ r h1 (by omega) hr1,
      recover_nonneg _ g h1 (by omega), recover_le_255 _ g h1 (by omega) hg1,
      recover_nonneg _ b h1 (by omega), recover_le_255 _ b h1 (by omega) hb1,
      by omega, by omega⟩

/-- Witness for C10 at the concrete input `(100, 150, 200)`. -/
theorem output_components_in_range_witness :
    0 ≤ (calculate_transparency 100 150 200).1 ∧
    (calculate_transparency 100 150 200).1 ≤ 255 ∧
    0 ≤ (calculate_transparency 100 150 200).2.1 ∧
    (calculate_transparency 100 150 200).2.1 ≤ 255 ∧
    0 ≤ (calculate_transparency 100 150 200).2.2.1 ∧
    (calculate_transparency 100 150 200).2.2.1 ≤ 255 ∧
    0 ≤ (calculate_transparency 100 150 200).2.2.2 ∧
    (calculate_transparency 100 150 200).2.2.2 ≤ 255 :=
  output_components_in_range 100 150 200 (by decide) (by decide) (by decide) (by decide)
    (by decide) (by decide)

end WhiteToAlpha
